import Mathlib

/-!
Verification of the visit-counter service core: the MD5-based consistent-hash
ring (`app/core/consistent_hash.py`), the sharded store front-end
(`app/core/redis_manager.py`), the TTL cache (`app/services/cache_service.py`)
and the write-buffering counter service (`app/services/visit_counter.py`).

Conventions of the embedding:
* machine time (`time.time()`) is modelled as `ℚ`;
* Python `dict`s whose iteration order matters are modelled as association
  lists in insertion order with unique keys (`dictInsert` updates in place or
  appends, `dictEraseKey` deletes, `dictGet` looks up);
* exceptions become `Option`/`Except` results; store (Redis) failures are
  modelled by explicit failure oracles, since whether a network operation
  raises is an environment input;
* `hashlib.md5` is implemented bit-faithfully over `Nat` (`md5Hash`).
-/

namespace MD5

/-- 32-bit left rotation, as used by the MD5 round function. -/
def rotl (x n : Nat) : Nat := ((x <<< n) ||| (x >>> (32 - n))) % 4294967296

/-- The per-round shift amounts of MD5. -/
def shifts : List Nat :=
  [7,12,17,22,7,12,17,22,7,12,17,22,7,12,17,22,
   5,9,14,20,5,9,14,20,5,9,14,20,5,9,14,20,
   4,11,16,23,4,11,16,23,4,11,16,23,4,11,16,23,
   6,10,15,21,6,10,15,21,6,10,15,21,6,10,15,21]

/-- The MD5 sine-derived additive constants. -/
def sines : List Nat :=
  [0xd76aa478, 0xe8c7b756, 0x242070db, 0xc1bdceee,
   0xf57c0faf, 0x4787c62a, 0xa8304613, 0xfd469501,
   0x698098d8, 0x8b44f7af, 0xffff5bb1, 0x895cd7be,
   0x6b901122, 0xfd987193, 0xa679438e, 0x49b40821,
   0xf61e2562, 0xc040b340, 0x265e5a51, 0xe9b6c7aa,
   0xd62f105d, 0x02441453, 0xd8a1e681, 0xe7d3fbc8,
   0x21e1cde6, 0xc33707d6, 0xf4d50d87, 0x455a14ed,
   0xa9e3e905, 0xfcefa3f8, 0x676f02d9, 0x8d2a4c8a,
   0xfffa3942, 0x8771f681, 0x6d9d6122, 0xfde5380c,
   0xa4beea44, 0x4bdecfa9, 0xf6bb4b60, 0xbebfbc70,
   0x289b7ec6, 0xeaa127fa, 0xd4ef3085, 0x04881d05,
   0xd9d4d039, 0xe6db99e5, 0x1fa27cf8, 0xc4ac5665,
   0xf4292244, 0x432aff97, 0xab9423a7, 0xfc93a039,
   0x655b59c3, 0x8f0ccc92, 0xffeff47d, 0x85845dd1,
   0x6fa87e4f, 0xfe2ce6e0, 0xa3014314, 0x4e0811a1,
   0xf7537e82, 0xbd3af235, 0x2ad7d2bb, 0xeb86d391]

/-- UTF-8 encoding of one code point (`str.encode('utf-8')`, per character). -/
def encodeChar (c : Char) : List Nat :=
  let n := c.toNat
  if n < 0x80 then [n]
  else if n < 0x800 then
    [0xC0 ||| (n >>> 6), 0x80 ||| (n &&& 0x3F)]
  else if n < 0x10000 then
    [0xE0 ||| (n >>> 12), 0x80 ||| ((n >>> 6) &&& 0x3F), 0x80 ||| (n &&& 0x3F)]
  else
    [0xF0 ||| (n >>> 18), 0x80 ||| ((n >>> 12) &&& 0x3F),
     0x80 ||| ((n >>> 6) &&& 0x3F), 0x80 ||| (n &&& 0x3F)]

/-- UTF-8 byte sequence of a string (`key.encode('utf-8')`). -/
def utf8Bytes (s : String) : List Nat := s.data.flatMap encodeChar

/-- MD5 padding: `0x80`, zeros to 56 mod 64, then the 8-byte little-endian
bit length. -/
def pad (msg : List Nat) : List Nat :=
  let len := msg.length
  let z := (120 - ((len + 1) % 64)) % 64
  msg ++ [0x80] ++ List.replicate z 0 ++
    (List.range 8).map (fun i => ((len * 8) >>> (8 * i)) &&& 0xFF)

/-- Split into 64-byte chunks; structural recursion on a fuel counter so that
the definition evaluates inside the kernel. -/
def chunksAux : Nat → List Nat → List (List Nat)
  | 0, _ => []
  | _ + 1, [] => []
  | n + 1, bs => bs.take 64 :: chunksAux n (bs.drop 64)

/-- Split a byte sequence into 64-byte chunks. -/
def chunks (bs : List Nat) : List (List Nat) := chunksAux (bs.length / 64 + 1) bs

/-- Little-endian 32-bit word `j` of a chunk. -/
def word (chunk : List Nat) (j : Nat) : Nat :=
  chunk.getD (4 * j) 0 + (chunk.getD (4 * j + 1) 0 <<< 8) +
  (chunk.getD (4 * j + 2) 0 <<< 16) + (chunk.getD (4 * j + 3) 0 <<< 24)

/-- One MD5 round (of 64) on the state `(a, b, c, d)`. -/
def round (chunk : List Nat) (st : Nat × Nat × Nat × Nat) (i : Nat) :
    Nat × Nat × Nat × Nat :=
  let (a, b, c, d) := st
  let f :=
    if i < 16 then (b &&& c) ||| ((b ^^^ 0xFFFFFFFF) &&& d)
    else if i < 32 then (d &&& b) ||| ((d ^^^ 0xFFFFFFFF) &&& c)
    else if i < 48 then b ^^^ c ^^^ d
    else c ^^^ (b ||| (d ^^^ 0xFFFFFFFF))
  let g :=
    if i < 16 then i
    else if i < 32 then (5 * i + 1) % 16
    else if i < 48 then (3 * i + 5) % 16
    else (7 * i) % 16
  let t := (f + a + sines.getD i 0 + word chunk g) % 4294967296
  (d, (b + rotl t (shifts.getD i 0)) % 4294967296, b, c)

/-- Process one 64-byte chunk: 64 rounds, then add into the running state. -/
def processChunk (st : Nat × Nat × Nat × Nat) (chunk : List Nat) :
    Nat × Nat × Nat × Nat :=
  let (a0, b0, c0, d0) := st
  let (a, b, c, d) := (List.range 64).foldl (round chunk) st
  ((a0 + a) % 4294967296, (b0 + b) % 4294967296,
   (c0 + c) % 4294967296, (d0 + d) % 4294967296)

/-- Little-endian byte decomposition of a 32-bit word. -/
def leBytes (x : Nat) : List Nat :=
  [x &&& 0xFF, (x >>> 8) &&& 0xFF, (x >>> 16) &&& 0xFF, (x >>> 24) &&& 0xFF]

/-- The 16-byte MD5 digest of a string. -/
def digest (s : String) : List Nat :=
  let msg := pad (utf8Bytes s)
  let (a, b, c, d) :=
    (chunks msg).foldl processChunk (0x67452301, 0xefcdab89, 0x98badcfe, 0x10325476)
  leBytes a ++ leBytes b ++ leBytes c ++ leBytes d

end MD5

/-- `ConsistentHash._hash`: `int(hashlib.md5(key.encode('utf-8')).hexdigest(), 16)`,
i.e. the 128-bit MD5 digest read as a big-endian integer. -/
def md5Hash (s : String) : Nat :=
  (MD5.digest s).foldl (fun acc b => acc * 256 + b) 0

/-! ### Python `dict` as an insertion-ordered association list -/

/-- `d[k]` lookup: first (and with unique keys, only) binding of `k`. -/
def dictGet {β : Type} (l : List (Nat × β)) (k : Nat) : Option β :=
  (l.find? (fun p => p.1 == k)).map Prod.snd

/-- `d[k] = v`: update the binding in place if present, else append. -/
def dictInsert {β : Type} (l : List (Nat × β)) (k : Nat) (v : β) : List (Nat × β) :=
  if l.any (fun p => p.1 == k) then
    l.map (fun p => if p.1 == k then (p.1, v) else p)
  else l ++ [(k, v)]

/-- `del d[k]`: drop every binding of `k` (with unique keys, the one binding). -/
def dictEraseKey {β : Type} (l : List (Nat × β)) (k : Nat) : List (Nat × β) :=
  l.filter (fun p => ¬ p.1 == k)

/-- Python `bisect.bisect` (= `bisect_right`) on a sorted list: the insertion
index after all elements `≤ x`, i.e. the index of the first element `> x`. -/
def bisect (l : List Nat) (x : Nat) : Nat :=
  (l.takeWhile (fun y => y ≤ x)).length

/-! ### `app/core/consistent_hash.py` -/

/-- The state of `ConsistentHash`: virtual-node count, the hash-to-node dict,
and the (kept-sorted) list of ring hash values. -/
structure ConsistentHash where
  virtual_nodes : Nat
  hash_ring : List (Nat × String)
  sorted_keys : List Nat
deriving DecidableEq

/-- The virtual-node key string `f"{node}:{i}"`. -/
def vnodeKey (node : String) (i : Nat) : String := node ++ ":" ++ toString i

/-- `add_node`: for each `i < virtual_nodes`, hash `f"{node}:{i}"`, map that
hash to `node` in the dict and append it to `sorted_keys`; sort at the end. -/
def ConsistentHash.add_node (ch : ConsistentHash) (node : String) : ConsistentHash :=
  let st := (List.range ch.virtual_nodes).foldl
    (fun st i =>
      let hash_value := md5Hash (vnodeKey node i)
      (dictInsert st.1 hash_value node, st.2 ++ [hash_value]))
    (ch.hash_ring, ch.sorted_keys)
  { ch with hash_ring := st.1, sorted_keys := st.2.insertionSort (· ≤ ·) }

/-- `remove_node`: collect the hashes currently mapped to `node`, then delete
each from the dict and from `sorted_keys` (first occurrence). -/
def ConsistentHash.remove_node (ch : ConsistentHash) (node : String) : ConsistentHash :=
  let keys_to_remove := (ch.hash_ring.filter (fun p => p.2 == node)).map Prod.fst
  { ch with
    hash_ring := keys_to_remove.foldl (fun r h => dictEraseKey r h) ch.hash_ring,
    sorted_keys := keys_to_remove.foldl (fun l h => l.erase h) ch.sorted_keys }

/-- `get_node`: raise (here: `none`) on an empty ring, otherwise take the ring
entry at `bisect(sorted_keys, hash) % len(sorted_keys)` and look its hash up in
the dict.  The `none` result also covers the `KeyError`/`ZeroDivisionError`
cases that can only occur when `sorted_keys` and `hash_ring` are out of sync. -/
def ConsistentHash.get_node (ch : ConsistentHash) (key : String) : Option String :=
  if ch.hash_ring.isEmpty then none
  else
    let hash_value := md5Hash key
    let index := bisect ch.sorted_keys hash_value % ch.sorted_keys.length
    (ch.sorted_keys[index]?).bind (fun h => dictGet ch.hash_ring h)

/-- `ConsistentHash.__init__`: start empty and `add_node` each node in order. -/
def ConsistentHash.init (nodes : List String) (virtual_nodes : Nat) : ConsistentHash :=
  nodes.foldl (fun ch node => ch.add_node node) ⟨virtual_nodes, [], []⟩

/-! ### `app/services/cache_service.py` -/

/-- The state of `CacheService`: `key -> (value, expiration_timestamp)` plus
the construction-time TTL (default 5 seconds). -/
structure CacheService where
  cache : String → Option (Int × ℚ)
  ttl_seconds : ℚ

/-- `CacheService.set`: store `(value, now + ttl_seconds)` under `key`. -/
def CacheService.set (c : CacheService) (key : String) (value : Int) (now : ℚ) :
    CacheService :=
  let expiration := now + c.ttl_seconds
  { c with cache := fun k => if k = key then some (value, expiration) else c.cache k }

/-- `CacheService.get`: `(None, False)` on a missing key; on a present key,
delete it and miss when `now > expiration`, else hit with the stored value. -/
def CacheService.get (c : CacheService) (key : String) (now : ℚ) :
    Option Int × Bool × CacheService :=
  match c.cache key with
  | none => (none, false, c)
  | some (value, expiration) =>
    if now > expiration then
      (none, false, { c with cache := fun k => if k = key then none else c.cache k })
    else
      (some value, true, c)

/-- `CacheService.invalidate`: unconditional removal of `key`. -/
def CacheService.invalidate (c : CacheService) (key : String) : CacheService :=
  { c with cache := fun k => if k = key then none else c.cache k }

/-! ### `app/services/visit_counter.py` -/

/-- Modelled from the spec: the response carrier `app.schemas.counter.VisitCount`
(its module is not under `src/`); its two fields are fixed by the constructor
calls `VisitCount(visits=..., served_via=...)` in `visit_counter.py`. -/
structure VisitCount where
  visits : Int
  served_via : String
deriving DecidableEq

/-- `self.cache_ttl = 5.0` in `VisitCounterService.__init__`. -/
def cache_ttl : ℚ := 5

/-- `self.flush_interval = 30.0` in `VisitCounterService.__init__`. -/
def flush_interval : ℚ := 30

/-- The Redis key `f"visit_counter:{page_id}"`. -/
def redisKey (page_id : String) : String := "visit_counter:" ++ page_id

/-- The mutable state a `VisitCounterService` instance acts on, together with
the backing store it talks to through `redis_manager`:
* `cache`: the service's own in-memory dict `page_id -> (count, expiration)`;
* `write_buffer`: the `defaultdict(int)` of pending counts, in insertion order;
* `last_flush_time`; and
* `store`: the persisted counters, read and incremented via `redis_manager`
  (a key never written holds `0`, matching Redis `GET`/`INCRBY` semantics);
* `ring`: the `ConsistentHash` instance `redis_manager` routes through (carried
  here so that its non-mutation by service operations is expressible). -/
structure World where
  cache : String → Option (Int × ℚ)
  write_buffer : List (String × Nat)
  last_flush_time : ℚ
  store : String → Int
  ring : ConsistentHash

/-- `self.write_buffer[k] += n` on a `defaultdict(int)`: update the existing
entry in place, or append a fresh entry holding `n`. -/
def bufAdd (buf : List (String × Nat)) (k : String) (n : Nat) : List (String × Nat) :=
  if buf.any (fun p => p.1 == k) then
    buf.map (fun p => if p.1 == k then (p.1, p.2 + n) else p)
  else buf ++ [(k, n)]

/-- `self.write_buffer.get(k, 0)` (also the `defaultdict` read of a key). -/
def bufGet (buf : List (String × Nat)) (k : String) : Nat :=
  ((buf.find? (fun p => p.1 == k)).map Prod.snd).getD 0

/-- `increment_visit`: add 1 to the buffered count for `page_id` and delete any
cache entry for it.  No store access. -/
def increment_visit (w : World) (page_id : String) : World :=
  { w with
    write_buffer := bufAdd w.write_buffer page_id 1,
    cache := fun k => if k = page_id then none else w.cache k }

/-- `flush_buffer`: return at once on an empty buffer; otherwise snapshot the
buffer, clear it, and walk the snapshot in order.  For each entry with a
positive count, attempt `redis_manager.increment(f"visit_counter:{page_id}",
count)`: on success add `count` into the store and delete the page's cache
entry; if the store raises (decided by the oracle `fails`), add `count` back
into the live buffer.  Finally set `last_flush_time` to the current time.
Returns the new world and the list of store increments actually applied. -/
def flushStep (fails : String → Bool) (acc : World × List (String × Nat))
    (e : String × Nat) : World × List (String × Nat) :=
  let (wa, ops) := acc
  let (page_id, count) := e
  if count > 0 then
    if fails page_id then
      ({ wa with write_buffer := bufAdd wa.write_buffer page_id count }, ops)
    else
      ({ wa with
          store := fun k =>
            if k = redisKey page_id then wa.store k + count else wa.store k,
          cache := fun k => if k = page_id then none else wa.cache k },
       ops ++ [(page_id, count)])
  else acc

def flush_buffer (w : World) (fails : String → Bool) (now : ℚ) :
    World × List (String × Nat) :=
  if w.write_buffer.isEmpty then (w, [])
  else
    let buffer_copy := w.write_buffer
    let start : World := { w with write_buffer := [] }
    let result := buffer_copy.foldl (flushStep fails) (start, [])
    ({ result.1 with last_flush_time := now }, result.2)

/-- The guard of the catch-up flush in `get_visit_count`:
`current_time - self.last_flush_time > self.flush_interval`. -/
def catch_up_due (w : World) (current_time : ℚ) : Bool :=
  current_time - w.last_flush_time > flush_interval

/-- The part of `get_visit_count` after the cache check: possibly run the
catch-up flush, read the persisted count, add the pending buffered count
(without removing it), repopulate the cache, and answer `served_via="redis"`. -/
def get_visit_count_body (w : World) (page_id : String) (current_time : ℚ)
    (fails : String → Bool) : VisitCount × World × List (String × Nat) :=
  let flushed :=
    if catch_up_due w current_time then flush_buffer w fails current_time else (w, [])
  let w1 := flushed.1
  let redis_count := w1.store (redisKey page_id)
  let pending_count : Nat := bufGet w1.write_buffer page_id
  let total_count : Int := redis_count + pending_count
  let w2 := { w1 with
    cache := fun k =>
      if k = page_id then some (total_count, current_time + cache_ttl) else w1.cache k }
  ({ visits := total_count, served_via := "redis" }, w2, flushed.2)

/-- `get_visit_count`: serve a valid cache entry as `served_via="in_memory"`;
delete an expired entry; on a miss fall through to the store path.  Also
returns the store increments performed by a triggered catch-up flush. -/
def get_visit_count (w : World) (page_id : String) (current_time : ℚ)
    (fails : String → Bool) : VisitCount × World × List (String × Nat) :=
  match w.cache page_id with
  | some (count, expiration) =>
    if current_time < expiration then
      ({ visits := count, served_via := "in_memory" }, w, [])
    else
      get_visit_count_body
        { w with cache := fun k => if k = page_id then none else w.cache k }
        page_id current_time fails
  | none => get_visit_count_body w page_id current_time fails

/-! ### `app/core/redis_manager.py` -/

/-- The state of `RedisManager`: its `ConsistentHash`, the set of nodes holding
a client in `redis_clients`, the per-node stored values (`none` = key absent),
and an oracle saying whether talking to a node raises (connection/timeout). -/
structure RedisManager where
  consistent_hash : ConsistentHash
  redis_clients : List String
  node_store : String → String → Option Int
  node_fails : String → Bool

/-- `RedisManager.get_connection`: resolve the node via `get_node` (which
raises on an empty ring) and fail if no client exists for it. -/
def RedisManager.get_connection (m : RedisManager) (key : String) :
    Except String String :=
  match m.consistent_hash.get_node key with
  | none => .error "Hash ring is empty"
  | some node =>
    if m.redis_clients.contains node then .ok node
    else .error ("No Redis client available for node " ++ node)

/-- `RedisManager.get`: resolve the connection, read the key, and return
`int(value)` for a present key and `0` for an absent one; any raised error is
re-raised wrapped in `Failed to get key ...`. -/
def RedisManager.get (m : RedisManager) (key : String) : Except String Int :=
  match m.get_connection key with
  | .error e => .error ("Failed to get key " ++ key ++ ": " ++ e)
  | .ok node =>
    if m.node_fails node then
      .error ("Failed to get key " ++ key ++ ": connection error")
    else
      .ok (match m.node_store node key with
           | some v => v
           | none => 0)

/-! ### Basic lemmas about the buffer dictionary -/

theorem find?_append_none {α : Type} (p : α → Bool) (l l' : List α)
    (h : l.find? p = none) : (l ++ l').find? p = l'.find? p := by
  induction l with
  | nil => rfl
  | cons a t ih =>
    rw [List.find?_cons] at h
    rcases hpa : p a with _ | _
    · simp only [List.cons_append, List.find?_cons, hpa]
      exact ih (by simpa [hpa] using h)
    · simp [hpa] at h

theorem find?_append_some {α : Type} (p : α → Bool) (l l' : List α) (a : α)
    (h : l.find? p = some a) : (l ++ l').find? p = some a := by
  induction l with
  | nil => simp at h
  | cons x t ih =>
    rw [List.find?_cons] at h
    rcases hpx : p x with _ | _
    · rw [hpx] at h
      simpa [List.find?_cons, hpx] using ih h
    · rw [hpx] at h
      simpa [List.find?_cons, hpx] using h

theorem find?_bufAdd_map {k : String} (n : Nat) (buf : List (String × Nat)) :
    (buf.map (fun p => if p.1 == k then (p.1, p.2 + n) else p)).find?
        (fun p => p.1 == k) =
      (buf.find? (fun p => p.1 == k)).map
        (fun p => if p.1 == k then (p.1, p.2 + n) else p) := by
  induction buf with
  | nil => rfl
  | cons a t ih =>
    by_cases ha : a.1 = k
    · simp [List.find?_cons, ha]
    · have hb : (a.1 == k) = false := by simpa using ha
      rw [List.map_cons, if_neg (by simp [hb]), List.find?_cons, List.find?_cons]
      simp only [hb]
      exact ih

theorem find?_bufAdd_map_ne {k k' : String} (n : Nat) (hne : k' ≠ k)
    (buf : List (String × Nat)) :
    (buf.map (fun p => if p.1 == k then (p.1, p.2 + n) else p)).find?
        (fun p => p.1 == k') =
      buf.find? (fun p => p.1 == k') := by
  induction buf with
  | nil => rfl
  | cons a t ih =>
    by_cases ha : a.1 = k'
    · have hak : (a.1 == k) = false := by
        simp only [beq_eq_false_iff_ne, ne_eq]
        rw [ha]; exact hne
      rw [List.map_cons, if_neg (by simp [hak]), List.find?_cons, List.find?_cons]
      simp [ha]
    · have hb : (a.1 == k') = false := by simpa using ha
      by_cases hak : a.1 = k
      · rw [List.map_cons, if_pos (by simp [hak]), List.find?_cons, List.find?_cons]
        simp only [hb]
        exact ih
      · rw [List.map_cons, if_neg (by simp [hak]), List.find?_cons, List.find?_cons]
        simp only [hb]
        exact ih

theorem bufGet_bufAdd_same (buf : List (String × Nat)) (k : String) (n : Nat) :
    bufGet (bufAdd buf k n) k = bufGet buf k + n := by
  by_cases h : buf.any (fun p => p.1 == k)
  · have hsome : (buf.find? (fun p => p.1 == k)).isSome := by
      rw [List.find?_isSome]
      simpa [List.any_eq_true] using h
    obtain ⟨p, hp⟩ := Option.isSome_iff_exists.mp hsome
    have hpk : (p.1 == k) = true := by simpa using List.find?_some hp
    unfold bufGet bufAdd
    rw [if_pos h, find?_bufAdd_map, hp]
    simp [show p.1 = k by simpa using hpk]
  · have hnone : buf.find? (fun p => p.1 == k) = none := by
      rw [List.find?_eq_none]
      intro x hx
      by_contra hc
      exact h (List.any_eq_true.mpr ⟨x, hx, by simpa using hc⟩)
    unfold bufGet bufAdd
    rw [if_neg h, find?_append_none _ _ _ hnone, hnone]
    simp [List.find?]

theorem bufGet_bufAdd_ne (buf : List (String × Nat)) {k k' : String} (n : Nat)
    (hne : k' ≠ k) : bufGet (bufAdd buf k n) k' = bufGet buf k' := by
  by_cases h : buf.any (fun p => p.1 == k)
  · unfold bufGet bufAdd
    rw [if_pos h, find?_bufAdd_map_ne n hne]
  · unfold bufGet bufAdd
    rw [if_neg h]
    rcases hfind : buf.find? (fun p => p.1 == k') with _ | p
    · rw [find?_append_none _ _ _ hfind]
      have hkk : (k == k') = false := by
        simp only [beq_eq_false_iff_ne, ne_eq]
        exact fun hc => hne hc.symm
      simp [List.find?, hkk, hfind]
    · rw [find?_append_some _ _ _ _ hfind, hfind]

/-! ### Claim C4: cache TTL boundary -/

/-- C4 (counterexample): a `CacheService` entry set at `t = 0` with TTL `5` is
looked up at exactly `t + ttl = 5`; the code reports a **hit** (the expiry test
is `now > expiration`), while the claim `hit iff now < t + ttl` demands a miss. -/
theorem c4_counterexample :
    (((CacheService.set { cache := fun _ => none, ttl_seconds := 5 } "k" 7 0).get
        "k" 5).2.1 = true) ∧
      ¬ ((5 : ℚ) < 0 + 5) := by
  constructor
  · norm_num [CacheService.get, CacheService.set]
  · norm_num

/-- C4 (amended): an entry set at time `t` with TTL `ttl` is a hit iff
`now ≤ t + ttl` (so still a hit at exactly `t + ttl`); it is a hit at
`t + ttl − ε` and a miss at `t + ttl + ε` for every `ε > 0`; and a lookup that
finds an expired entry removes it and reports a miss. -/
theorem c4_amended (c : CacheService) (key : String) (value : Int) (t now : ℚ) :
    (((c.set key value t).get key now).2.1 = true ↔ now ≤ t + c.ttl_seconds) ∧
    (∀ ε : ℚ, 0 < ε →
      ((c.set key value t).get key (t + c.ttl_seconds - ε)).2.1 = true ∧
      ((c.set key value t).get key (t + c.ttl_seconds + ε)).2.1 = false) ∧
    (t + c.ttl_seconds < now →
      ((c.set key value t).get key now).2.2.cache key = none ∧
      ((c.set key value t).get key now).1 = none) := by
  have hset : (c.set key value t).cache key = some (value, t + c.ttl_seconds) := by
    simp [CacheService.set]
  refine ⟨?_, ?_, ?_⟩
  · rw [CacheService.get, hset]
    by_cases h : now > t + c.ttl_seconds
    · simp [h, not_le.mpr h]
    · simp [h, not_lt.mp h]
  · intro ε hε
    constructor
    · rw [CacheService.get, hset]
      have : ¬ (t + c.ttl_seconds - ε > t + c.ttl_seconds) := by linarith
      simp [this]
    · rw [CacheService.get, hset]
      have : t + c.ttl_seconds + ε > t + c.ttl_seconds := by linarith
      simp [this]
  · intro h
    rw [CacheService.get, hset]
    simp [h]

/-- C4 (witness for the amended theorem): with TTL 5 and an entry set at
`t = 0`, a lookup at `0 + 5 - 1` is a hit. -/
theorem c4_amended_witness :
    ((CacheService.set { cache := fun _ => none, ttl_seconds := 5 } "k" 7 0).get
        "k" (0 + 5 - 1)).2.1 = true :=
  (((c4_amended { cache := fun _ => none, ttl_seconds := 5 } "k" 7 0
      (0 + 5 - 1)).2.1) 1 (by norm_num)).1

/-! ### Claim C5: increment frame -/

/-- C5: `increment_visit K` raises the buffered count of `K` by exactly 1 and
clears `K`'s cache entry; every other key's buffered count and cache entry,
the store, `last_flush_time` and the hash ring are untouched, and no store
operation happens (the store component is unchanged). -/
theorem c5_increment_frame (w : World) (K : String) :
    bufGet (increment_visit w K).write_buffer K = bufGet w.write_buffer K + 1 ∧
    (increment_visit w K).cache K = none ∧
    (∀ K', K' ≠ K →
      bufGet (increment_visit w K).write_buffer K' = bufGet w.write_buffer K' ∧
      (increment_visit w K).cache K' = w.cache K') ∧
    (increment_visit w K).store = w.store ∧
    (increment_visit w K).last_flush_time = w.last_flush_time ∧
    (increment_visit w K).ring = w.ring := by
  refine ⟨bufGet_bufAdd_same w.write_buffer K 1, by simp [increment_visit],
    fun K' hne => ⟨bufGet_bufAdd_ne w.write_buffer 1 hne, by simp [increment_visit, hne]⟩,
    rfl, rfl, rfl⟩

/-- A fixed example world: empty cache and buffer, `last_flush_time = 0`, a
zero store, and a fresh empty ring. -/
def Wex : World :=
  { cache := fun _ => none, write_buffer := [], last_flush_time := 0,
    store := fun _ => 0, ring := ⟨100, [], []⟩ }

/-- C5 (witness): in the example world, incrementing `"p"` leaves the buffered
count of `"q"` unchanged. -/
theorem c5_increment_frame_witness :
    bufGet (increment_visit Wex "p").write_buffer "q" = bufGet Wex.write_buffer "q" :=
  ((c5_increment_frame Wex "p").2.2.1 "q" (by decide)).1

/-! ### Claim C6: flush idempotence -/

theorem flushFold_buffer_nofail (L : List (String × Nat))
    (acc : World × List (String × Nat)) :
    (L.foldl (flushStep (fun _ => false)) acc).1.write_buffer =
      acc.1.write_buffer := by
  induction L generalizing acc with
  | nil => rfl
  | cons e t ih =>
    rw [List.foldl_cons, ih]
    rcases e with ⟨page_id, count⟩
    by_cases hc : count > 0
    · simp [flushStep, hc]
    · simp [flushStep, hc]

/-- C6: flushing twice in a row with every store increment succeeding is
idempotent — after the first flush the pending map is empty, and the second
flush performs zero store operations and leaves the state unchanged. -/
theorem c6_flush_idempotent (w : World) (now1 now2 : ℚ) :
    (flush_buffer w (fun _ => false) now1).1.write_buffer = [] ∧
    (flush_buffer (flush_buffer w (fun _ => false) now1).1 (fun _ => false) now2).2
      = [] ∧
    (flush_buffer (flush_buffer w (fun _ => false) now1).1 (fun _ => false) now2).1
      = (flush_buffer w (fun _ => false) now1).1 := by
  have hempty : (flush_buffer w (fun _ => false) now1).1.write_buffer = [] := by
    rw [flush_buffer]
    by_cases h : w.write_buffer.isEmpty
    · rw [if_pos h]
      exact List.isEmpty_iff.mp h
    · rw [if_neg h]
      exact flushFold_buffer_nofail w.write_buffer _
  have h2 : flush_buffer (flush_buffer w (fun _ => false) now1).1 (fun _ => false)
      now2 = ((flush_buffer w (fun _ => false) now1).1, []) := by
    rw [flush_buffer, if_pos (List.isEmpty_iff.mpr hempty)]
  exact ⟨hempty, by rw [h2], by rw [h2]⟩

/-! ### Claim C10: empty flush is a no-op and does not advance the clock -/

/-- C10: calling `flush_buffer` with an empty pending map returns before doing
anything: no store operation happens, the whole world — `last_flush_time`
included — is unchanged, and therefore the catch-up-flush guard of a later
read (`now' - last_flush_time > flush_interval`) evaluates exactly as it would
have before the empty flush. -/
theorem c10_empty_flush_noop (w : World) (fails : String → Bool) (now : ℚ)
    (h : w.write_buffer = []) :
    flush_buffer w fails now = (w, []) ∧
    ∀ now' : ℚ, catch_up_due (flush_buffer w fails now).1 now' = catch_up_due w now' := by
  have h1 : flush_buffer w fails now = (w, []) := by
    rw [flush_buffer, if_pos (List.isEmpty_iff.mpr h)]
  exact ⟨h1, fun now' => by rw [h1]⟩

/-- C10 (witness): the empty flush of the example world at time 7 is a no-op. -/
theorem c10_empty_flush_noop_witness :
    flush_buffer Wex (fun _ => false) 7 = (Wex, []) :=
  (c10_empty_flush_noop Wex (fun _ => false) 7 rfl).1

/-! ### Claim C1: a read merges the pending count with the store value -/

/-- `n` consecutive `increment_visit` calls on the same key. -/
def iterIncr (w : World) (k : String) : Nat → World
  | 0 => w
  | n + 1 => increment_visit (iterIncr w k n) k

theorem iterIncr_store (w : World) (k : String) (n : Nat) :
    (iterIncr w k n).store = w.store := by
  induction n with
  | zero => rfl
  | succ m ih => rw [iterIncr, increment_visit]; exact ih

theorem iterIncr_last_flush (w : World) (k : String) (n : Nat) :
    (iterIncr w k n).last_flush_time = w.last_flush_time := by
  induction n with
  | zero => rfl
  | succ m ih => rw [iterIncr, increment_visit]; exact ih

theorem iterIncr_bufGet (w : World) (k : String) (n : Nat) :
    bufGet (iterIncr w k n).write_buffer k = bufGet w.write_buffer k + n := by
  induction n with
  | zero => rfl
  | succ m ih =>
    rw [iterIncr, increment_visit]
    show bufGet (bufAdd (iterIncr w k m).write_buffer k 1) k = _
    rw [bufGet_bufAdd_same, ih]
    omega

theorem iterIncr_cache_none (w : World) (k : String) {n : Nat} (hn : 1 ≤ n) :
    (iterIncr w k n).cache k = none := by
  rcases n with _ | m
  · omega
  · rw [iterIncr, increment_visit]
    simp

/-- C1: starting from a state with no pending count for `K`, after `n ≥ 1`
increments of `K` with no intervening flush (and with the catch-up-flush guard
not yet due), a read of `K` misses the cache (the increments invalidated it)
and returns the store value before the increments plus `n`, served from the
store; the pending count is read without being removed from the buffer, and
the store itself is not changed by the read. -/
theorem c1_read_after_increments (w0 : World) (K : String) (n : Nat) (now : ℚ)
    (fails : String → Bool) (hpend : bufGet w0.write_buffer K = 0) (hn : 1 ≤ n)
    (hflush : now - w0.last_flush_time ≤ flush_interval) :
    (get_visit_count (iterIncr w0 K n) K now fails).1.visits =
      w0.store (redisKey K) + n ∧
    (get_visit_count (iterIncr w0 K n) K now fails).1.served_via = "redis" ∧
    bufGet (get_visit_count (iterIncr w0 K n) K now fails).2.1.write_buffer K = n ∧
    (get_visit_count (iterIncr w0 K n) K now fails).2.1.store (redisKey K) =
      w0.store (redisKey K) := by
  have hcache : (iterIncr w0 K n).cache K = none := iterIncr_cache_none w0 K hn
  have hlf := iterIncr_last_flush w0 K n
  have hstore := iterIncr_store w0 K n
  have hbuf : bufGet (iterIncr w0 K n).write_buffer K = n := by
    rw [iterIncr_bufGet, hpend]; omega
  have hgvc : get_visit_count (iterIncr w0 K n) K now fails =
      get_visit_count_body (iterIncr w0 K n) K now fails := by
    unfold get_visit_count
    rw [hcache]
  have hcud : catch_up_due (iterIncr w0 K n) now = false := by
    simp only [catch_up_due, hlf, decide_eq_false_iff_not, gt_iff_lt, not_lt]
    exact hflush
  rw [hgvc]
  unfold get_visit_count_body
  rw [hcud]
  simp [hstore, hbuf]

/-- C1 (witness): two increments of `"p"` in the example world, then a read at
time 10, give `0 + 2` visits. -/
theorem c1_read_after_increments_witness :
    (get_visit_count (iterIncr Wex "p" 2) "p" 10 (fun _ => false)).1.visits =
      Wex.store (redisKey "p") + 2 :=
  (c1_read_after_increments Wex "p" 2 10 (fun _ => false) rfl (by norm_num)
    (by show (10 : ℚ) - 0 ≤ 30; norm_num)).1

/-! ### Claim C9: absent key vs store failure -/

/-- C9: once `get_connection` resolves a node for the key, `RedisManager.get`
answers `Ok 0` for a key absent from that node's store (not an error), and a
connection/timeout failure against that node surfaces as an error — so "key
absent" and "store failure" can never be confused. -/
theorem c9_absent_is_zero (m : RedisManager) (key node : String)
    (hconn : m.get_connection key = .ok node) :
    (m.node_fails node = false → m.node_store node key = none →
      m.get key = .ok 0) ∧
    (m.node_fails node = true →
      m.get key = .error ("Failed to get key " ++ key ++ ": connection error")) ∧
    (∀ e : String, (Except.ok 0 : Except String Int) ≠ .error e) := by
  refine ⟨?_, ?_, fun e h => by cases h⟩
  · intro hfail habs
    rw [RedisManager.get, hconn]
    simp [hfail, habs]
  · intro hfail
    rw [RedisManager.get, hconn]
    simp [hfail]

/-- An example manager over a one-node ring, with an empty healthy store. -/
def Mex : RedisManager :=
  { consistent_hash := ConsistentHash.init ["redis://n1"] 1,
    redis_clients := ["redis://n1"],
    node_store := fun _ _ => none,
    node_fails := fun _ => false }

/-- The same manager with the node's connection failing. -/
def MexDown : RedisManager := { Mex with node_fails := fun _ => true }

set_option maxRecDepth 100000 in
/-- C9 (witness): in the example manager the absent key reads as `Ok 0`; with
the connection down, the same read is an error. -/
theorem c9_absent_is_zero_witness :
    Mex.get "visit_counter:home" = .ok 0 ∧
    MexDown.get "visit_counter:home" =
      .error ("Failed to get key " ++ "visit_counter:home" ++ ": connection error") :=
  ⟨(c9_absent_is_zero Mex "visit_counter:home" "redis://n1" (by rfl)).1 rfl rfl,
   (c9_absent_is_zero MexDown "visit_counter:home" "redis://n1" (by rfl)).2.1 rfl⟩

/-! ### Claim C2: failed flush re-buffers; retry delivers exactly once -/

theorem redisKey_inj {a b : String} (h : redisKey a = redisKey b) : a = b := by
  have hd : ("visit_counter:".data ++ a.data) = ("visit_counter:".data ++ b.data) := by
    have := congrArg String.data h
    simpa [redisKey, String.data_append] using this
  have h2 := List.append_cancel_left hd
  cases a; cases b
  exact congrArg String.mk h2

theorem flushStep_store_ne (fails : String → Bool) (acc : World × List (String × Nat))
    (e : String × Nat) (K : String) (h : e.1 ≠ K) :
    (flushStep fails acc e).1.store (redisKey K) = acc.1.store (redisKey K) := by
  rcases e with ⟨page_id, count⟩
  rw [flushStep]
  by_cases hc : count > 0
  · by_cases hf : fails page_id
    · simp [hc, hf]
    · have hne : redisKey K ≠ redisKey page_id := fun hk => h (redisKey_inj hk).symm
      simp [hc, hf, hne]
  · simp [hc]

theorem flushStep_buffer_ne (fails : String → Bool) (acc : World × List (String × Nat))
    (e : String × Nat) (K : String) (h : e.1 ≠ K) :
    bufGet (flushStep fails acc e).1.write_buffer K = bufGet acc.1.write_buffer K := by
  rcases e with ⟨page_id, count⟩
  rw [flushStep]
  by_cases hc : count > 0
  · by_cases hf : fails page_id
    · simpa [hc, hf] using bufGet_bufAdd_ne acc.1.write_buffer count (Ne.symm h)
    · simp [hc, hf]
  · simp [hc]

theorem flushFold_store_ne (fails : String → Bool) (L : List (String × Nat))
    (acc : World × List (String × Nat)) (K : String) (h : ∀ e ∈ L, e.1 ≠ K) :
    (L.foldl (flushStep fails) acc).1.store (redisKey K) =
      acc.1.store (redisKey K) := by
  induction L generalizing acc with
  | nil => rfl
  | cons e t ih =>
    rw [List.foldl_cons, ih _ (fun x hx => h x (List.mem_cons_of_mem e hx))]
    exact flushStep_store_ne fails acc e K (h e (List.mem_cons_self e t))

theorem flushFold_buffer_ne (fails : String → Bool) (L : List (String × Nat))
    (acc : World × List (String × Nat)) (K : String) (h : ∀ e ∈ L, e.1 ≠ K) :
    bufGet (L.foldl (flushStep fails) acc).1.write_buffer K =
      bufGet acc.1.write_buffer K := by
  induction L generalizing acc with
  | nil => rfl
  | cons e t ih =>
    rw [List.foldl_cons, ih _ (fun x hx => h x (List.mem_cons_of_mem e hx))]
    exact flushStep_buffer_ne fails acc e K (h e (List.mem_cons_self e t))

theorem flushFold_split (fails : String → Bool) (L1 L2 : List (String × Nat))
    (acc : World × List (String × Nat)) (K : String) (c : Nat)
    (h1 : ∀ e ∈ L1, e.1 ≠ K) (h2 : ∀ e ∈ L2, e.1 ≠ K) (hc : 0 < c) :
    (fails K = true →
      ((L1 ++ (K, c) :: L2).foldl (flushStep fails) acc).1.store (redisKey K) =
          acc.1.store (redisKey K) ∧
      bufGet ((L1 ++ (K, c) :: L2).foldl (flushStep fails) acc).1.write_buffer K =
          bufGet acc.1.write_buffer K + c) ∧
    (fails K = false →
      ((L1 ++ (K, c) :: L2).foldl (flushStep fails) acc).1.store (redisKey K) =
          acc.1.store (redisKey K) + c ∧
      bufGet ((L1 ++ (K, c) :: L2).foldl (flushStep fails) acc).1.write_buffer K =
          bufGet acc.1.write_buffer K) := by
  rw [List.foldl_append, List.foldl_cons]
  constructor <;> intro hf
  · have hstep : flushStep fails (L1.foldl (flushStep fails) acc) (K, c) =
        ({ (L1.foldl (flushStep fails) acc).1 with
            write_buffer :=
              bufAdd (L1.foldl (flushStep fails) acc).1.write_buffer K c },
         (L1.foldl (flushStep fails) acc).2) := by
      simp [flushStep, hc, hf]
    rw [flushFold_store_ne fails L2 _ K h2, flushFold_buffer_ne fails L2 _ K h2, hstep]
    constructor
    · exact flushFold_store_ne fails L1 acc K h1
    · show bufGet (bufAdd _ K c) K = _
      rw [bufGet_bufAdd_same, flushFold_buffer_ne fails L1 acc K h1]
  · have hstep : flushStep fails (L1.foldl (flushStep fails) acc) (K, c) =
        ({ (L1.foldl (flushStep fails) acc).1 with
            store := fun k =>
              if k = redisKey K then (L1.foldl (flushStep fails) acc).1.store k + c
              else (L1.foldl (flushStep fails) acc).1.store k,
            cache := fun k =>
              if k = K then none else (L1.foldl (flushStep fails) acc).1.cache k },
         (L1.foldl (flushStep fails) acc).2 ++ [(K, c)]) := by
      simp [flushStep, hc, hf]
    rw [flushFold_store_ne fails L2 _ K h2, flushFold_buffer_ne fails L2 _ K h2, hstep]
    constructor
    · show (if redisKey K = redisKey K then _ + (c : Int) else _) = _
      rw [if_pos rfl, flushFold_store_ne fails L1 acc K h1]
    · exact flushFold_buffer_ne fails L1 acc K h1

theorem bufAdd_keys_nodup (buf : List (String × Nat)) (k : String) (n : Nat)
    (h : (buf.map Prod.fst).Nodup) : ((bufAdd buf k n).map Prod.fst).Nodup := by
  unfold bufAdd
  by_cases ha : buf.any (fun p => p.1 == k)
  · rw [if_pos ha]
    have hmap : (buf.map (fun p => if p.1 == k then (p.1, p.2 + n) else p)).map Prod.fst
        = buf.map Prod.fst := by
      rw [List.map_map]
      refine List.map_congr_left ?_
      intro p _
      by_cases hpk : p.1 = k <;> simp [hpk]
    rw [hmap]
    exact h
  · rw [if_neg ha]
    have hk : k ∉ buf.map Prod.fst := by
      intro hmem
      rcases List.mem_map.mp hmem with ⟨p, hp, hpk⟩
      exact ha (List.any_eq_true.mpr ⟨p, hp, by simpa using hpk⟩)
    simp only [List.map_append, List.map_cons, List.map_nil]
    rw [List.nodup_append]
    refine ⟨h, List.nodup_singleton k, ?_⟩
    intro a ha' hb
    rw [List.mem_singleton] at hb
    subst hb
    exact hk ha'


theorem flushStep_keys_nodup (fails : String → Bool)
    (acc : World × List (String × Nat)) (e : String × Nat)
    (h : (acc.1.write_buffer.map Prod.fst).Nodup) :
    (((flushStep fails acc e).1.write_buffer).map Prod.fst).Nodup := by
  rcases e with ⟨page_id, count⟩
  rw [flushStep]
  by_cases hc : count > 0
  · by_cases hf : fails page_id
    · simpa [hc, hf] using bufAdd_keys_nodup acc.1.write_buffer page_id count h
    · simpa [hc, hf] using h
  · simpa [hc] using h

theorem flushFold_keys_nodup (fails : String → Bool) (L : List (String × Nat))
    (acc : World × List (String × Nat))
    (h : (acc.1.write_buffer.map Prod.fst).Nodup) :
    ((L.foldl (flushStep fails) acc).1.write_buffer.map Prod.fst).Nodup := by
  induction L generalizing acc with
  | nil => exact h
  | cons e t ih =>
    rw [List.foldl_cons]
    exact ih _ (flushStep_keys_nodup fails acc e h)

theorem flush_buffer_keys_nodup (w : World) (fails : String → Bool) (now : ℚ)
    (h : (w.write_buffer.map Prod.fst).Nodup) :
    ((flush_buffer w fails now).1.write_buffer.map Prod.fst).Nodup := by
  rw [flush_buffer]
  by_cases he : w.write_buffer.isEmpty
  · rw [if_pos he]
    exact h
  · rw [if_neg he]
    exact flushFold_keys_nodup fails w.write_buffer _ (by simp)

theorem iterIncr_keys_nodup (w : World) (k : String) (n : Nat)
    (h : (w.write_buffer.map Prod.fst).Nodup) :
    ((iterIncr w k n).write_buffer.map Prod.fst).Nodup := by
  induction n with
  | zero => exact h
  | succ m ih =>
    rw [iterIncr, increment_visit]
    exact bufAdd_keys_nodup _ k 1 ih

theorem bufGet_pos_split (buf : List (String × Nat)) (K : String)
    (h : 0 < bufGet buf K) :
    ∃ L1 L2, buf = L1 ++ (K, bufGet buf K) :: L2 ∧ ∀ e ∈ L1, e.1 ≠ K := by
  induction buf with
  | nil => simp [bufGet] at h
  | cons a t ih =>
    by_cases hak : a.1 = K
    · refine ⟨[], t, ?_, by simp⟩
      have hbg : bufGet (a :: t) K = a.2 := by
        simp [bufGet, List.find?_cons, hak]
      rw [hbg, List.nil_append, ← hak]
    · have hbg : bufGet (a :: t) K = bufGet t K := by
        simp [bufGet, List.find?_cons, hak]
      rw [hbg] at h ⊢
      rcases ih h with ⟨L1, L2, hsplit, hfree⟩
      refine ⟨a :: L1, L2, by rw [List.cons_append, ← hsplit], fun e he => ?_⟩
      rcases List.mem_cons.mp he with rfl | hmem
      · exact hak
      · exact hfree e hmem

theorem flush_once_key (w : World) (fails : String → Bool) (now : ℚ) (K : String)
    (c : Nat) (hkeys : (w.write_buffer.map Prod.fst).Nodup)
    (hc : bufGet w.write_buffer K = c) (hcpos : 0 < c) :
    (fails K = true →
      (flush_buffer w fails now).1.store (redisKey K) = w.store (redisKey K) ∧
      bufGet (flush_buffer w fails now).1.write_buffer K = c) ∧
    (fails K = false →
      (flush_buffer w fails now).1.store (redisKey K) = w.store (redisKey K) + (c : Int) ∧
      bufGet (flush_buffer w fails now).1.write_buffer K = 0) := by
  obtain ⟨L1, L2, hsplit, hL1⟩ :=
    bufGet_pos_split w.write_buffer K (by rw [hc]; exact hcpos)
  rw [hc] at hsplit
  have hkeys' := hkeys
  rw [hsplit] at hkeys'
  simp only [List.map_append, List.map_cons] at hkeys'
  have hL2 : ∀ e ∈ L2, e.1 ≠ K := by
    have h2 : (K :: L2.map Prod.fst).Nodup := hkeys'.of_append_right
    have hKnot : K ∉ L2.map Prod.fst := (List.nodup_cons.mp h2).1
    intro e he heq
    exact hKnot (List.mem_map.mpr ⟨e, he, heq⟩)
  have hne : ¬ (w.write_buffer.isEmpty = true) := by
    rw [List.isEmpty_iff, hsplit]
    simp
  have hflush : flush_buffer w fails now =
      ({ ((L1 ++ (K, c) :: L2).foldl (flushStep fails)
            ({ w with write_buffer := [] }, [])).1 with last_flush_time := now },
       ((L1 ++ (K, c) :: L2).foldl (flushStep fails)
            ({ w with write_buffer := [] }, [])).2) := by
    rw [flush_buffer, if_neg hne, hsplit]
  have hfold := flushFold_split fails L1 L2 ({ w with write_buffer := [] }, []) K c
    hL1 hL2 hcpos
  constructor <;> intro hf
  · refine ⟨?_, ?_⟩
    · rw [hflush]
      exact (hfold.1 hf).1
    · rw [hflush]
      show bufGet ((L1 ++ (K, c) :: L2).foldl (flushStep fails)
          ({ w with write_buffer := [] }, [])).1.write_buffer K = c
      rw [(hfold.1 hf).2]
      simp [bufGet]
  · refine ⟨?_, ?_⟩
    · rw [hflush]
      exact (hfold.2 hf).1
    · rw [hflush]
      show bufGet ((L1 ++ (K, c) :: L2).foldl (flushStep fails)
          ({ w with write_buffer := [] }, [])).1.write_buffer K = 0
      rw [(hfold.2 hf).2]
      simp [bufGet]

/-- C2: if the flush of key `K`'s pending count `c` fails (the store increment
raises), `c` is added back into the live pending map; `m` further increments
then arrive, and a later flush in which `K` succeeds delivers `c + m` to the
store in one increment — the failed attempt delivered nothing, the retry
delivers the originally pending count plus the interim increments exactly
once, and nothing for `K` stays pending afterwards. -/
theorem c2_failed_flush_rebuffers (w0 : World) (K : String) (c m : Nat)
    (fails1 fails2 : String → Bool) (now1 now2 : ℚ)
    (hkeys : (w0.write_buffer.map Prod.fst).Nodup)
    (hc : bufGet w0.write_buffer K = c) (hcpos : 0 < c)
    (hf1 : fails1 K = true) (hf2 : fails2 K = false) :
    bufGet (flush_buffer w0 fails1 now1).1.write_buffer K = c ∧
    (flush_buffer w0 fails1 now1).1.store (redisKey K) = w0.store (redisKey K) ∧
    bufGet (iterIncr (flush_buffer w0 fails1 now1).1 K m).write_buffer K = c + m ∧
    (flush_buffer (iterIncr (flush_buffer w0 fails1 now1).1 K m) fails2 now2).1.store
        (redisKey K) = w0.store (redisKey K) + (c + m : Nat) ∧
    bufGet (flush_buffer (iterIncr (flush_buffer w0 fails1 now1).1 K m) fails2
        now2).1.write_buffer K = 0 := by
  have h1 := (flush_once_key w0 fails1 now1 K c hkeys hc hcpos).1 hf1
  have hbuf2 : bufGet (iterIncr (flush_buffer w0 fails1 now1).1 K m).write_buffer K
      = c + m := by
    rw [iterIncr_bufGet, h1.2]
  have hnodup2 : ((iterIncr (flush_buffer w0 fails1 now1).1 K m).write_buffer.map
      Prod.fst).Nodup :=
    iterIncr_keys_nodup _ _ _ (flush_buffer_keys_nodup w0 fails1 now1 hkeys)
  have h2 := (flush_once_key (iterIncr (flush_buffer w0 fails1 now1).1 K m) fails2
    now2 K (c + m) hnodup2 hbuf2 (by omega)).2 hf2
  refine ⟨h1.2, h1.1, hbuf2, ?_, h2.2⟩
  rw [h2.1, iterIncr_store, h1.1]

/-- The example world with one pending entry of 3 for `"p"`. -/
def W2ex : World := { Wex with write_buffer := [("p", 3)] }

/-- C2 (witness): with 3 pending for `"p"`, a failed flush, 2 more increments
and a successful flush, the store ends up exactly 5 higher. -/
theorem c2_failed_flush_rebuffers_witness :
    (flush_buffer (iterIncr (flush_buffer W2ex (fun _ => true) 1).1 "p" 2)
        (fun _ => false) 2).1.store (redisKey "p") =
      W2ex.store (redisKey "p") + (3 + 2 : Nat) :=
  (c2_failed_flush_rebuffers W2ex "p" 3 2 (fun _ => true) (fun _ => false) 1 2
    (by decide) rfl (by omega) rfl rfl).2.2.2.1

/-! ### Claim C3: ring lookup rule -/

/-- The claim's stated rule: the shard of the **first** ring entry whose hash
is **greater than or equal to** the key's hash, wrapping to the first entry
when none exists; `none` when no nodes are registered. -/
def locateFirstGE (ch : ConsistentHash) (key : String) : Option String :=
  if ch.hash_ring.isEmpty then none
  else
    match ch.sorted_keys.find? (fun k => md5Hash key ≤ k) with
    | some k => dictGet ch.hash_ring k
    | none => ch.sorted_keys.head?.bind (fun h => dictGet ch.hash_ring h)

/-- The amended rule actually implemented by `bisect` (= `bisect_right`): the
shard of the first ring entry whose hash is **strictly greater** than the
key's hash, wrapping to the first entry when none exists. -/
def locateFirstGT (ch : ConsistentHash) (key : String) : Option String :=
  if ch.hash_ring.isEmpty then none
  else
    match ch.sorted_keys.find? (fun k => md5Hash key < k) with
    | some k => dictGet ch.hash_ring k
    | none => ch.sorted_keys.head?.bind (fun h => dictGet ch.hash_ring h)

theorem bisect_getElem? (l : List Nat) (x : Nat) :
    l[bisect l x % l.length]? =
      match l.find? (fun k => x < k) with
      | some k => some k
      | none => l.head? := by
  have hpred : (fun k : Nat => !(decide (x < k))) = (fun y : Nat => decide (y ≤ x)) := by
    funext k
    rw [← decide_not, decide_eq_decide]
    exact Nat.not_lt
  have hfind : l.find? (fun k => decide (x < k)) =
      (l.dropWhile (fun y => decide (y ≤ x))).head? := by
    rw [List.find?_eq_head?_dropWhile_not, hpred]
  have htd := List.takeWhile_append_dropWhile (p := fun y : Nat => decide (y ≤ x)) (l := l)
  cases hd : l.dropWhile (fun y => decide (y ≤ x)) with
  | nil =>
    have htw : l.takeWhile (fun y : Nat => decide (y ≤ x)) = l := by
      rw [hd, List.append_nil] at htd
      exact htd
    rw [hfind, hd]
    simp only [List.head?_nil]
    rw [bisect, htw, Nat.mod_self]
    exact (List.head?_eq_getElem? _).symm
  | cons y ys =>
    have hlen : (l.takeWhile (fun y : Nat => decide (y ≤ x))).length < l.length := by
      conv_rhs => rw [← htd]
      rw [hd]
      simp [List.length_append]
    rw [hfind, hd, List.head?_cons]
    rw [bisect, Nat.mod_eq_of_lt hlen]
    have hgoal : ∀ (l₁ l₂ : List Nat) (z : Nat) (zs : List Nat), l₂ = z :: zs →
        (l₁ ++ l₂)[l₁.length]? = some z := by
      intro l₁ l₂ z zs h
      subst h
      rw [List.getElem?_append_right (le_refl _)]
      simp
    calc l[(l.takeWhile (fun y : Nat => decide (y ≤ x))).length]?
        = (l.takeWhile (fun y : Nat => decide (y ≤ x)) ++
            l.dropWhile (fun y : Nat => decide (y ≤ x)))[(l.takeWhile
            (fun y : Nat => decide (y ≤ x))).length]? := by rw [htd]
      _ = some y := hgoal _ _ y ys hd

theorem dictGet_isSome_of_mem {β : Type} (l : List (Nat × β)) (k : Nat)
    (h : k ∈ l.map Prod.fst) : ∃ v, dictGet l k = some v := by
  have hs : (l.find? (fun p => p.1 == k)).isSome := by
    rw [List.find?_isSome]
    rcases List.mem_map.mp h with ⟨p, hp, hpk⟩
    exact ⟨p, hp, by simp [hpk]⟩
  rcases Option.isSome_iff_exists.mp hs with ⟨p, hp⟩
  exact ⟨p.2, by rw [dictGet, hp]; rfl⟩

/-- C3 (amended): on a well-formed ring (`sorted_keys` sorted and in sync with
the dict), `get_node` returns the shard of the first ring entry whose hash is
**strictly greater** than the key's hash — a ring entry whose hash equals the
key's hash exactly is skipped, because `bisect` is `bisect_right` — wrapping
to the first entry when no greater hash exists; and it fails (ring-empty
error) exactly when no nodes are registered. -/
theorem c3_amended (ch : ConsistentHash) (key : String)
    (hsorted : ch.sorted_keys.Sorted (· ≤ ·))
    (hperm : ch.sorted_keys.Perm (ch.hash_ring.map Prod.fst)) :
    ch.get_node key = locateFirstGT ch key ∧
    (ch.get_node key = none ↔ ch.hash_ring = []) := by
  by_cases hre : ch.hash_ring.isEmpty
  · have hr : ch.hash_ring = [] := List.isEmpty_iff.mp hre
    constructor
    · rw [ConsistentHash.get_node, locateFirstGT, if_pos hre, if_pos hre]
    · rw [ConsistentHash.get_node, if_pos hre]
      exact ⟨fun _ => hr, fun _ => rfl⟩
  · have hr : ch.hash_ring ≠ [] := fun h0 => hre (List.isEmpty_iff.mpr h0)
    have hkne : ch.sorted_keys ≠ [] := by
      intro h0
      rw [h0] at hperm
      have hmap : ch.hash_ring.map Prod.fst = [] := hperm.symm.eq_nil
      exact hr (List.map_eq_nil_iff.mp hmap)
    have heq : ch.get_node key = locateFirstGT ch key := by
      rw [ConsistentHash.get_node, locateFirstGT, if_neg hre, if_neg hre]
      show (ch.sorted_keys[bisect ch.sorted_keys (md5Hash key) %
          ch.sorted_keys.length]?).bind (fun h => dictGet ch.hash_ring h) = _
      rw [bisect_getElem?]
      cases hf : ch.sorted_keys.find? (fun k => md5Hash key < k) with
      | none => simp
      | some k => simp
    refine ⟨heq, ?_⟩
    rw [heq]
    constructor
    · intro hnone
      exfalso
      rw [locateFirstGT, if_neg hre] at hnone
      cases hf : ch.sorted_keys.find? (fun k => md5Hash key < k) with
      | some k =>
        rw [hf] at hnone
        have hk : k ∈ ch.sorted_keys := List.mem_of_find?_eq_some hf
        rcases dictGet_isSome_of_mem ch.hash_ring k (hperm.mem_iff.mp hk) with ⟨v, hv⟩
        have hnone2 : dictGet ch.hash_ring k = none := hnone
        rw [hv] at hnone2
        cases hnone2
      | none =>
        rw [hf] at hnone
        cases hks : ch.sorted_keys with
        | nil => exact hkne hks
        | cons a t =>
          rw [hks, List.head?_cons] at hnone
          have ha : a ∈ ch.sorted_keys := by rw [hks]; exact List.mem_cons_self a t
          rcases dictGet_isSome_of_mem ch.hash_ring a (hperm.mem_iff.mp ha) with ⟨v, hv⟩
          have hnone2 : dictGet ch.hash_ring a = none := hnone
          rw [hv] at hnone2
          cases hnone2
    · intro h0
      exact absurd h0 hr

set_option maxRecDepth 400000 in
/-- C3 (counterexample): in the two-shard ring built from `["A", "B"]` with one
virtual node each, the key `"A:0"` hashes exactly onto shard `A`'s ring entry;
the claim's `≥` rule picks `A`, but `get_node` (Python `bisect` =
`bisect_right`, a strict `>` search) skips the equal entry and returns `B`. -/
theorem c3_counterexample :
    (ConsistentHash.init ["A", "B"] 1).get_node "A:0" = some "B" ∧
    locateFirstGE (ConsistentHash.init ["A", "B"] 1) "A:0" = some "A" ∧
    (ConsistentHash.init ["A", "B"] 1).get_node "A:0" ≠
      locateFirstGE (ConsistentHash.init ["A", "B"] 1) "A:0" := by
  exact ⟨by decide, by decide, by decide⟩

set_option maxRecDepth 400000 in
/-- C3 (witness for the amended theorem): on the concrete ring from
`["A", "B"]`, `get_node` agrees with the strict-successor rule. -/
theorem c3_amended_witness :
    (ConsistentHash.init ["A", "B"] 1).get_node "A:0" =
      locateFirstGT (ConsistentHash.init ["A", "B"] 1) "A:0" :=
  (c3_amended (ConsistentHash.init ["A", "B"] 1) "A:0" (by decide) (by decide)).1

/-! ### Ring structure lemmas (for C7 and C8) -/

/-- The `(hash, node)` pairs `add_node` creates for one shard. -/
def blockPairs (V : Nat) (node : String) : List (Nat × String) :=
  (List.range V).map (fun i => (md5Hash (vnodeKey node i), node))

/-- The hash positions of one shard's virtual nodes. -/
def blockHashes (V : Nat) (node : String) : List Nat :=
  (List.range V).map (fun i => md5Hash (vnodeKey node i))

/-- All virtual-node hashes of a shard list. -/
def allVnodeHashes (nodes : List String) (V : Nat) : List Nat :=
  nodes.flatMap (blockHashes V)

/-- All `(hash, node)` pairs of a shard list, in insertion order. -/
def allPairs (nodes : List String) (V : Nat) : List (Nat × String) :=
  nodes.flatMap (blockPairs V)

theorem blockPairs_map_fst (V : Nat) (node : String) :
    (blockPairs V node).map Prod.fst = blockHashes V node := by
  rw [blockPairs, blockHashes, List.map_map]
  rfl

theorem blockPairs_snd (V : Nat) (node : String) :
    ∀ p ∈ blockPairs V node, p.2 = node := by
  intro p hp
  rcases List.mem_map.mp hp with ⟨i, _, rfl⟩
  rfl

theorem allPairs_map_fst (nodes : List String) (V : Nat) :
    (allPairs nodes V).map Prod.fst = allVnodeHashes nodes V := by
  induction nodes with
  | nil => rfl
  | cons m rest ih =>
    rw [allPairs, allVnodeHashes, List.flatMap_cons, List.flatMap_cons,
      List.map_append, blockPairs_map_fst]
    rw [allPairs, allVnodeHashes] at ih
    rw [ih]

theorem mem_allPairs_snd (nodes : List String) (V : Nat) (p : Nat × String)
    (hp : p ∈ allPairs nodes V) : p.2 ∈ nodes := by
  rcases List.mem_flatMap.mp hp with ⟨m, hm, hpm⟩
  rw [blockPairs_snd V m p hpm]
  exact hm

theorem add_node_fold (idxs : List Nat) (node : String) (r : List (Nat × String))
    (ks : List Nat) :
    idxs.foldl
        (fun st i =>
          (dictInsert st.1 (md5Hash (vnodeKey node i)) node,
           st.2 ++ [md5Hash (vnodeKey node i)]))
        (r, ks) =
      (idxs.foldl (fun d i => dictInsert d (md5Hash (vnodeKey node i)) node) r,
       ks ++ idxs.map (fun i => md5Hash (vnodeKey node i))) := by
  induction idxs generalizing r ks with
  | nil => simp
  | cons i t ih =>
    rw [List.foldl_cons, List.foldl_cons, ih, List.map_cons]
    rw [List.append_assoc, List.singleton_append]

theorem dictInsert_fresh {β : Type} (l : List (Nat × β)) (k : Nat) (v : β)
    (h : k ∉ l.map Prod.fst) : dictInsert l k v = l ++ [(k, v)] := by
  have hany : ¬ l.any (fun p => p.1 == k) = true := by
    intro hc
    rcases List.any_eq_true.mp hc with ⟨p, hp, hpk⟩
    exact h (List.mem_map.mpr ⟨p, hp, by simpa using hpk⟩)
  rw [dictInsert, if_neg hany]

theorem foldl_dictInsert_fresh (idxs : List Nat) (node : String)
    (r : List (Nat × String))
    (h : ∀ i ∈ idxs, md5Hash (vnodeKey node i) ∉ r.map Prod.fst)
    (hnd : (idxs.map (fun i => md5Hash (vnodeKey node i))).Nodup) :
    idxs.foldl (fun d i => dictInsert d (md5Hash (vnodeKey node i)) node) r =
      r ++ idxs.map (fun i => (md5Hash (vnodeKey node i), node)) := by
  induction idxs generalizing r with
  | nil => simp
  | cons i t ih =>
    rw [List.foldl_cons,
      dictInsert_fresh r _ node (h i (List.mem_cons_self i t))]
    rw [List.map_cons] at hnd
    have hni : md5Hash (vnodeKey node i) ∉
        t.map (fun j => md5Hash (vnodeKey node j)) := (List.nodup_cons.mp hnd).1
    rw [ih]
    · rw [List.map_cons, List.append_assoc, List.singleton_append]
    · intro j hj
      rw [List.map_append]
      intro hmem
      rcases List.mem_append.mp hmem with hA | hB
      · exact h j (List.mem_cons_of_mem i hj) hA
      · simp only [List.map_cons, List.map_nil, List.mem_singleton] at hB
        exact hni (hB ▸ List.mem_map.mpr ⟨j, hj, rfl⟩)
    · exact (List.nodup_cons.mp hnd).2

theorem add_node_eq (ch : ConsistentHash) (node : String)
    (hfresh : ∀ h ∈ blockHashes ch.virtual_nodes node, h ∉ ch.hash_ring.map Prod.fst)
    (hnd : (blockHashes ch.virtual_nodes node).Nodup) :
    ch.add_node node =
      { ch with
        hash_ring := ch.hash_ring ++ blockPairs ch.virtual_nodes node,
        sorted_keys := (ch.sorted_keys ++
          blockHashes ch.virtual_nodes node).insertionSort (· ≤ ·) } := by
  rw [ConsistentHash.add_node]
  show ({ ch with
      hash_ring := ((List.range ch.virtual_nodes).foldl
        (fun st i =>
          (dictInsert st.1 (md5Hash (vnodeKey node i)) node,
           st.2 ++ [md5Hash (vnodeKey node i)]))
        (ch.hash_ring, ch.sorted_keys)).1,
      sorted_keys := (((List.range ch.virtual_nodes).foldl
        (fun st i =>
          (dictInsert st.1 (md5Hash (vnodeKey node i)) node,
           st.2 ++ [md5Hash (vnodeKey node i)]))
        (ch.hash_ring, ch.sorted_keys)).2).insertionSort (· ≤ ·) } : ConsistentHash) = _
  rw [add_node_fold]
  rw [foldl_dictInsert_fresh _ _ _
    (fun i hi => hfresh _ (List.mem_map.mpr ⟨i, hi, rfl⟩)) hnd]
  rfl

theorem foldl_dictEraseKey {β : Type} (ks : List Nat) (r : List (Nat × β)) :
    ks.foldl (fun d h => dictEraseKey d h) r =
      r.filter (fun p => decide (p.1 ∉ ks)) := by
  induction ks generalizing r with
  | nil =>
    rw [List.foldl_nil]
    have : ∀ p ∈ r, (decide (p.1 ∉ ([] : List Nat))) = true := by
      intro p _
      simp
    conv_lhs => rw [← List.filter_eq_self.mpr this]
  | cons k t ih =>
    rw [List.foldl_cons, ih, dictEraseKey, List.filter_filter]
    refine List.filter_congr ?_
    intro p _
    by_cases h1 : p.1 = k
    · simp [h1]
    · by_cases h2 : p.1 ∈ t <;> simp [h1, h2]

theorem remove_node_eq (ch : ConsistentHash) (node : String)
    (hnd : (ch.hash_ring.map Prod.fst).Nodup) :
    (ch.remove_node node).hash_ring =
        ch.hash_ring.filter (fun p => ¬ p.2 == node) ∧
    (ch.remove_node node).sorted_keys =
        ch.sorted_keys.diff
          ((ch.hash_ring.filter (fun p => p.2 == node)).map Prod.fst) ∧
    (ch.remove_node node).virtual_nodes = ch.virtual_nodes := by
  refine ⟨?_, ?_, rfl⟩
  · show ((ch.hash_ring.filter (fun p => p.2 == node)).map Prod.fst).foldl
      (fun r h => dictEraseKey r h) ch.hash_ring = _
    rw [foldl_dictEraseKey]
    refine List.filter_congr ?_
    intro x hx
    have hiff : x.1 ∉ (ch.hash_ring.filter (fun p => p.2 == node)).map Prod.fst ↔
        ¬ ((x.2 == node) = true) := by
      constructor
      · intro hout hc
        exact hout (List.mem_map.mpr ⟨x, List.mem_filter.mpr ⟨hx, hc⟩, rfl⟩)
      · intro hne hin
        rcases List.mem_map.mp hin with ⟨q, hq, hq1⟩
        have hqr : q ∈ ch.hash_ring := (List.mem_filter.mp hq).1
        have hqn : (q.2 == node) = true := (List.mem_filter.mp hq).2
        have hqx : q = x := List.inj_on_of_nodup_map hnd hqr hx hq1
        exact hne (hqx ▸ hqn)
    exact decide_eq_decide.mpr hiff
  · show ((ch.hash_ring.filter (fun p => p.2 == node)).map Prod.fst).foldl
      (fun l h => l.erase h) ch.sorted_keys = _
    rw [← List.diff_eq_foldl]

theorem append_diff_self (ks rest : List Nat) : (ks ++ rest).diff ks = rest := by
  induction ks with
  | nil => simp
  | cons k t ih =>
    rw [List.cons_append, List.diff_cons, List.erase_cons_head]
    exact ih

/-- How many dict entries a shard owns. -/
def ownCount (ch : ConsistentHash) (node : String) : Nat :=
  (ch.hash_ring.filter (fun p => p.2 == node)).length

/-- The ring invariant of claim C8: `sorted_keys` is sorted and in sync with
the dict (same hash multiset, no duplicate hashes), and every shard present in
the ring owns exactly `virtual_nodes` entries. -/
def RingInv (ch : ConsistentHash) : Prop :=
  ch.sorted_keys.Sorted (· ≤ ·) ∧
  ch.sorted_keys.Perm (ch.hash_ring.map Prod.fst) ∧
  (ch.hash_ring.map Prod.fst).Nodup ∧
  ∀ node ∈ ch.hash_ring.map Prod.snd, ownCount ch node = ch.virtual_nodes

theorem blockPairs_length (V : Nat) (node : String) :
    (blockPairs V node).length = V := by
  rw [blockPairs, List.length_map, List.length_range]

theorem filter_blockPairs_same (V : Nat) (node : String) :
    (blockPairs V node).filter (fun p => p.2 == node) = blockPairs V node :=
  List.filter_eq_self.mpr (fun p hp => by rw [blockPairs_snd V node p hp]; simp)

theorem filter_blockPairs_ne (V : Nat) (node n : String) (hne : n ≠ node) :
    (blockPairs V node).filter (fun p => p.2 == n) = [] := by
  rw [List.filter_eq_nil_iff]
  intro p hp
  rw [blockPairs_snd V node p hp]
  simpa using fun hc => hne hc.symm

theorem filter_absent_shard (ring : List (Nat × String)) (n : String)
    (h : n ∉ ring.map Prod.snd) : ring.filter (fun p => p.2 == n) = [] := by
  rw [List.filter_eq_nil_iff]
  intro p hp hc
  exact h (List.mem_map.mpr ⟨p, hp, by simpa using hc⟩)

theorem ringInv_add (ch : ConsistentHash) (node : String) (hinv : RingInv ch)
    (hnode : node ∉ ch.hash_ring.map Prod.snd)
    (hfresh : ∀ h ∈ blockHashes ch.virtual_nodes node, h ∉ ch.hash_ring.map Prod.fst)
    (hbnd : (blockHashes ch.virtual_nodes node).Nodup) :
    RingInv (ch.add_node node) := by
  obtain ⟨hs, hp, hn, hc⟩ := hinv
  rw [add_node_eq ch node hfresh hbnd]
  refine ⟨?_, ?_, ?_, ?_⟩
  · exact List.sorted_insertionSort _ _
  · refine (List.perm_insertionSort _ _).trans ?_
    rw [List.map_append, blockPairs_map_fst]
    exact hp.append_right _
  · rw [List.map_append, blockPairs_map_fst, List.nodup_append]
    exact ⟨hn, hbnd, fun a ha hb => hfresh a hb ha⟩
  · intro n hmem
    show ((ch.hash_ring ++ blockPairs ch.virtual_nodes node).filter
      (fun p => p.2 == n)).length = ch.virtual_nodes
    rw [List.filter_append, List.length_append]
    by_cases hn' : n = node
    · subst hn'
      rw [filter_absent_shard ch.hash_ring n hnode, filter_blockPairs_same]
      rw [blockPairs_length]
      simp
    · rw [filter_blockPairs_ne _ _ _ hn']
      have hmem' : n ∈ ch.hash_ring.map Prod.snd := by
        rw [List.map_append] at hmem
        rcases List.mem_append.mp hmem with hA | hB
        · exact hA
        · exfalso
          rcases List.mem_map.mp hB with ⟨p, hp, hpn⟩
          exact hn' (hpn ▸ blockPairs_snd _ _ p hp)
      rw [List.length_nil]
      have := hc n hmem'
      rw [ownCount] at this
      omega

theorem ringInv_remove (ch : ConsistentHash) (node : String) (hinv : RingInv ch) :
    RingInv (ch.remove_node node) := by
  obtain ⟨hs, hp, hn, hc⟩ := hinv
  obtain ⟨hring, hkeys, hV⟩ := remove_node_eq ch node hn
  have hpart := List.filter_append_perm (fun p => p.2 == node) ch.hash_ring
  refine ⟨?_, ?_, ?_, ?_⟩
  · rw [hkeys]
    exact List.Pairwise.sublist (List.diff_sublist _ _) hs
  · rw [hkeys, hring]
    have h1 := hp.diff_right
      ((ch.hash_ring.filter (fun p => p.2 == node)).map Prod.fst)
    refine h1.trans ?_
    have hpredeq : ch.hash_ring.filter (fun x => !(x.2 == node)) =
        ch.hash_ring.filter (fun p => ¬ p.2 == node) := by
      refine List.filter_congr ?_
      intro x _
      by_cases hx : x.2 = node <;> simp [hx]
    have h2 : (ch.hash_ring.map Prod.fst).Perm
        ((ch.hash_ring.filter (fun p => p.2 == node)).map Prod.fst ++
          (ch.hash_ring.filter (fun p => ¬ p.2 == node)).map Prod.fst) := by
      have h3 := (List.Perm.map Prod.fst hpart).symm
      rw [List.map_append, hpredeq] at h3
      exact h3
    refine (h2.diff_right _).trans ?_
    rw [append_diff_self]
  · rw [hring]
    exact List.Nodup.sublist (List.Sublist.map Prod.fst (List.filter_sublist _)) hn
  · intro n hmem
    rw [hV]
    show ((ch.remove_node node).hash_ring.filter (fun p => p.2 == n)).length =
      ch.virtual_nodes
    rw [hring] at hmem ⊢
    have hnn : n ≠ node := by
      rcases List.mem_map.mp hmem with ⟨p, hp, hpn⟩
      have h4 : ¬ ((p.2 == node) = true) := by
        have h5 := (List.mem_filter.mp hp).2
        simpa using h5
      intro hc'
      exact h4 (by simp [hpn, hc'])
    rw [List.filter_filter]
    have hcong : ∀ p ∈ ch.hash_ring,
        ((p.2 == n) && (¬ p.2 == node : Bool)) = (p.2 == n) := by
      intro p _
      by_cases hpn : p.2 = n
      · simp [hpn, hnn]
      · simp [hpn]
    rw [List.filter_congr hcong]
    have hmem' : n ∈ ch.hash_ring.map Prod.snd := by
      rcases List.mem_map.mp hmem with ⟨p, hp, hpn⟩
      exact List.mem_map.mpr ⟨p, (List.mem_filter.mp hp).1, hpn⟩
    exact hc n hmem'

theorem allPairs_cons (m : String) (rest : List String) (V : Nat) :
    allPairs (m :: rest) V = blockPairs V m ++ allPairs rest V := rfl

theorem allVnodeHashes_cons (m : String) (rest : List String) (V : Nat) :
    allVnodeHashes (m :: rest) V = blockHashes V m ++ allVnodeHashes rest V := rfl

theorem allPairs_snoc (l : List String) (n : String) (V : Nat) :
    allPairs (l ++ [n]) V = allPairs l V ++ blockPairs V n := by
  rw [allPairs, List.flatMap_append]
  rw [allPairs]
  congr 1
  rw [List.flatMap_cons]
  simp

theorem allVnodeHashes_snoc (l : List String) (n : String) (V : Nat) :
    allVnodeHashes (l ++ [n]) V = allVnodeHashes l V ++ blockHashes V n := by
  rw [allVnodeHashes, List.flatMap_append]
  rw [allVnodeHashes]
  congr 1
  rw [List.flatMap_cons]
  simp

theorem add_node_virtual_nodes (ch : ConsistentHash) (node : String) :
    (ch.add_node node).virtual_nodes = ch.virtual_nodes := rfl

theorem foldl_add_node_spec (V : Nat) (rest : List String) :
    ∀ (processed : List String) (ch : ConsistentHash),
    ch.virtual_nodes = V →
    ch.hash_ring = allPairs processed V →
    ch.sorted_keys.Sorted (· ≤ ·) →
    ch.sorted_keys.Perm (allVnodeHashes processed V) →
    (allVnodeHashes (processed ++ rest) V).Nodup →
    (rest.foldl (fun c node => c.add_node node) ch).virtual_nodes = V ∧
    (rest.foldl (fun c node => c.add_node node) ch).hash_ring =
      allPairs (processed ++ rest) V ∧
    (rest.foldl (fun c node => c.add_node node) ch).sorted_keys.Sorted (· ≤ ·) ∧
    (rest.foldl (fun c node => c.add_node node) ch).sorted_keys.Perm
      (allVnodeHashes (processed ++ rest) V) := by
  induction rest with
  | nil =>
    intro processed ch hV hring hsorted hperm _
    simpa using ⟨hV, hring, hsorted, hperm⟩
  | cons node rest ih =>
    intro processed ch hV hring hsorted hperm hnd
    have hsplit : allVnodeHashes (processed ++ node :: rest) V =
        allVnodeHashes processed V ++
          (blockHashes V node ++ allVnodeHashes rest V) := by
      rw [allVnodeHashes, List.flatMap_append, List.flatMap_cons]
      rfl
    have hnd' := hnd
    rw [hsplit] at hnd'
    obtain ⟨hnd1, hnd23, hdisj1⟩ := List.nodup_append.mp hnd'
    obtain ⟨hbnd, _, _⟩ := List.nodup_append.mp hnd23
    have hfresh : ∀ h ∈ blockHashes ch.virtual_nodes node,
        h ∉ ch.hash_ring.map Prod.fst := by
      rw [hV, hring, allPairs_map_fst]
      intro h hb hmem
      exact hdisj1 hmem (List.mem_append_left _ hb)
    have hbnd' : (blockHashes ch.virtual_nodes node).Nodup := by
      rw [hV]
      exact hbnd
    rw [List.foldl_cons]
    have heq := add_node_eq ch node hfresh hbnd'
    have h1 : (ch.add_node node).virtual_nodes = V := by
      rw [add_node_virtual_nodes, hV]
    have h2 : (ch.add_node node).hash_ring = allPairs (processed ++ [node]) V := by
      rw [heq]
      show ch.hash_ring ++ blockPairs ch.virtual_nodes node = _
      rw [hring, hV, allPairs_snoc]
    have h3 : (ch.add_node node).sorted_keys.Sorted (· ≤ ·) := by
      rw [heq]
      exact List.sorted_insertionSort _ _
    have h4 : (ch.add_node node).sorted_keys.Perm
        (allVnodeHashes (processed ++ [node]) V) := by
      rw [heq]
      show ((ch.sorted_keys ++
        blockHashes ch.virtual_nodes node).insertionSort (· ≤ ·)).Perm _
      refine (List.perm_insertionSort _ _).trans ?_
      rw [allVnodeHashes_snoc, hV]
      exact hperm.append_right _
    have hnd2 : (allVnodeHashes ((processed ++ [node]) ++ rest) V).Nodup := by
      rw [List.append_assoc, List.singleton_append]
      exact hnd
    have hres := ih (processed ++ [node]) (ch.add_node node) h1 h2 h3 h4 hnd2
    rw [List.append_assoc, List.singleton_append] at hres
    exact hres

theorem allPairs_count (nodes : List String) (V : Nat) (n : String)
    (hnd : nodes.Nodup) (hn : n ∈ nodes) :
    ((allPairs nodes V).filter (fun p => p.2 == n)).length = V := by
  induction nodes with
  | nil => cases hn
  | cons m rest ih =>
    rw [allPairs_cons, List.filter_append, List.length_append]
    rcases List.mem_cons.mp hn with rfl | hmem
    · rw [filter_blockPairs_same, blockPairs_length]
      have hnotin : n ∉ rest := (List.nodup_cons.mp hnd).1
      have hempty : (allPairs rest V).filter (fun p => p.2 == n) = [] := by
        rw [List.filter_eq_nil_iff]
        intro p hp hc
        exact hnotin (by
          have := mem_allPairs_snd rest V p hp
          rwa [show p.2 = n by simpa using hc] at this)
      rw [hempty]
      simp
    · have hnm : n ≠ m := by
        intro hc
        exact (List.nodup_cons.mp hnd).1 (hc ▸ hmem)
      rw [filter_blockPairs_ne _ _ _ hnm, ih (List.nodup_cons.mp hnd).2 hmem]
      simp

theorem init_spec (nodes : List String) (V : Nat) (hndn : nodes.Nodup)
    (hnd : (allVnodeHashes nodes V).Nodup) :
    RingInv (ConsistentHash.init nodes V) ∧
    (ConsistentHash.init nodes V).hash_ring = allPairs nodes V ∧
    (ConsistentHash.init nodes V).virtual_nodes = V ∧
    (ConsistentHash.init nodes V).sorted_keys.Perm (allVnodeHashes nodes V) := by
  have h := foldl_add_node_spec V nodes [] ⟨V, [], []⟩ rfl rfl
    (by simp) (by simp [allVnodeHashes]) (by simpa using hnd)
  rw [List.nil_append] at h
  have hinit : ConsistentHash.init nodes V =
      nodes.foldl (fun c node => c.add_node node) ⟨V, [], []⟩ := rfl
  rw [← hinit] at h
  obtain ⟨hV, hring, hsorted, hperm⟩ := h
  refine ⟨⟨hsorted, ?_, ?_, ?_⟩, hring, hV, hperm⟩
  · rw [hring, allPairs_map_fst]
    exact hperm
  · rw [hring, allPairs_map_fst]
    exact hnd
  · intro n hmem
    rw [ownCount, hring, hV]
    refine allPairs_count nodes V n hndn ?_
    rw [hring] at hmem
    rcases List.mem_map.mp hmem with ⟨p, hp, hpn⟩
    exact hpn ▸ mem_allPairs_snd nodes V p hp

/-! ### Claim C8: the ring invariant -/

/-- C8: the invariant "`sorted_keys` is sorted, and every shard present in the
ring owns exactly `virtual_nodes` entries" (packaged, with the bookkeeping
that makes it inductive, as `RingInv`) holds after construction from distinct
shard names whose virtual-node hashes do not collide, and is preserved by
`add_node` (for a shard not already present, with collision-free fresh
hashes) and unconditionally by `remove_node`. -/
theorem c8_ring_invariant :
    (∀ (nodes : List String) (V : Nat), nodes.Nodup →
      (allVnodeHashes nodes V).Nodup → RingInv (ConsistentHash.init nodes V)) ∧
    (∀ (ch : ConsistentHash) (node : String), RingInv ch →
      node ∉ ch.hash_ring.map Prod.snd →
      (∀ h ∈ blockHashes ch.virtual_nodes node, h ∉ ch.hash_ring.map Prod.fst) →
      (blockHashes ch.virtual_nodes node).Nodup →
      RingInv (ch.add_node node)) ∧
    (∀ (ch : ConsistentHash) (node : String), RingInv ch →
      RingInv (ch.remove_node node)) :=
  ⟨fun nodes V h1 h2 => (init_spec nodes V h1 h2).1,
   ringInv_add, ringInv_remove⟩

set_option maxRecDepth 1000000 in
/-- C8 (witness): the invariant holds on the concrete ring built from
`["A", "B"]` with one virtual node per shard, still holds after removing
`"A"`, and still holds after adding the fresh shard `"C"`. -/
theorem c8_ring_invariant_witness :
    RingInv (ConsistentHash.init ["A", "B"] 1) ∧
    RingInv ((ConsistentHash.init ["A", "B"] 1).remove_node "A") ∧
    RingInv ((ConsistentHash.init ["A", "B"] 1).add_node "C") := by
  have h1 := c8_ring_invariant.1 ["A", "B"] 1 (by decide) (by decide)
  exact ⟨h1, c8_ring_invariant.2.2 _ "A" h1,
    c8_ring_invariant.2.1 _ "C" h1 (by decide) (by decide) (by decide)⟩

/-! ### Claim C7: remove + re-add restores the assignment -/

theorem dictGet_eq_some_iff {β : Type} (l : List (Nat × β))
    (hnd : (l.map Prod.fst).Nodup) (k : Nat) (v : β) :
    dictGet l k = some v ↔ (k, v) ∈ l := by
  constructor
  · intro h
    rw [dictGet] at h
    rcases hf : l.find? (fun p => p.1 == k) with _ | p
    · rw [hf] at h
      cases h
    · rw [hf] at h
      have hk : p.1 = k := by simpa using List.find?_some hf
      have hv : p.2 = v := by simpa using h
      have hpm : p ∈ l := List.mem_of_find?_eq_some hf
      have : p = (k, v) := by
        calc p = (p.1, p.2) := rfl
          _ = (k, v) := by rw [hk, hv]
      rw [← this]
      exact hpm
  · intro hmem
    have hs : (l.find? (fun p => p.1 == k)).isSome :=
      List.find?_isSome.mpr ⟨(k, v), hmem, by simp⟩
    rcases Option.isSome_iff_exists.mp hs with ⟨q, hq⟩
    have hq1 : q.1 = k := by simpa using List.find?_some hq
    have hqm : q ∈ l := List.mem_of_find?_eq_some hq
    have hqe : q = (k, v) := List.inj_on_of_nodup_map hnd hqm hmem (by rw [hq1])
    rw [dictGet, hq, hqe]
    rfl

theorem dictGet_eq_of_perm {β : Type} (l l' : List (Nat × β)) (h : l.Perm l')
    (hnd : (l.map Prod.fst).Nodup) (k : Nat) : dictGet l k = dictGet l' k := by
  have hnd' : (l'.map Prod.fst).Nodup := ((h.map Prod.fst).nodup_iff).mp hnd
  rcases hg : dictGet l k with _ | v
  · rcases hg' : dictGet l' k with _ | v'
    · rfl
    · have hmem : (k, v') ∈ l := h.mem_iff.mpr
        ((dictGet_eq_some_iff l' hnd' k v').mp hg')
      have := (dictGet_eq_some_iff l hnd k v').mpr hmem
      rw [hg] at this
      cases this
  · have hmem : (k, v) ∈ l' := h.mem_iff.mp ((dictGet_eq_some_iff l hnd k v).mp hg)
    exact ((dictGet_eq_some_iff l' hnd' k v).mpr hmem).symm

theorem get_node_congr (ch ch' : ConsistentHash) (key : String)
    (hk : ch.sorted_keys = ch'.sorted_keys)
    (he : ch.hash_ring.isEmpty = ch'.hash_ring.isEmpty)
    (hg : ∀ h, dictGet ch.hash_ring h = dictGet ch'.hash_ring h) :
    ch.get_node key = ch'.get_node key := by
  rw [ConsistentHash.get_node, ConsistentHash.get_node, hk, he]
  by_cases hre : ch'.hash_ring.isEmpty
  · rw [if_pos hre, if_pos hre]
  · rw [if_neg hre, if_neg hre]
    exact Option.bind_congr (fun a _ => hg a)

theorem ring_partition_perm (ring : List (Nat × String)) (node : String) :
    (ring.filter (fun p => p.2 == node) ++
      ring.filter (fun p => ¬ p.2 == node)).Perm ring := by
  have hpredeq : ring.filter (fun x => !(x.2 == node)) =
      ring.filter (fun p => ¬ p.2 == node) := by
    refine List.filter_congr ?_
    intro x _
    by_cases hx : x.2 = node <;> simp [hx]
  have h := List.filter_append_perm (fun p => p.2 == node) ring
  rwa [hpredeq] at h

theorem blockHashes_sublist (nodes : List String) (V : Nat) (x : String)
    (hx : x ∈ nodes) : (blockHashes V x).Sublist (allVnodeHashes nodes V) := by
  induction nodes with
  | nil => cases hx
  | cons m rest ih =>
    rw [allVnodeHashes_cons]
    rcases List.mem_cons.mp hx with rfl | hmem
    · exact List.sublist_append_left _ _
    · exact (ih hmem).trans (List.sublist_append_right _ _)

theorem filter_allPairs_eq_block (nodes : List String) (V : Nat) (x : String)
    (hndn : nodes.Nodup) (hx : x ∈ nodes) :
    (allPairs nodes V).filter (fun p => p.2 == x) = blockPairs V x := by
  induction nodes with
  | nil => cases hx
  | cons m rest ih =>
    rw [allPairs_cons, List.filter_append]
    rcases List.mem_cons.mp hx with rfl | hmem
    · rw [filter_blockPairs_same]
      have hnotin : x ∉ rest := (List.nodup_cons.mp hndn).1
      have hempty : (allPairs rest V).filter (fun p => p.2 == x) = [] := by
        rw [List.filter_eq_nil_iff]
        intro p hp hc
        refine hnotin ?_
        have hm := mem_allPairs_snd rest V p hp
        rwa [show p.2 = x by simpa using hc] at hm
      rw [hempty, List.append_nil]
    · have hxm : x ≠ m := fun hc => (List.nodup_cons.mp hndn).1 (hc ▸ hmem)
      rw [filter_blockPairs_ne _ _ _ hxm, List.nil_append]
      exact ih (List.nodup_cons.mp hndn).2 hmem

theorem mem_blockPairs_allPairs (nodes : List String) (V : Nat) (x : String)
    (hx : x ∈ nodes) (p : Nat × String) (hp : p ∈ blockPairs V x) :
    p ∈ allPairs nodes V :=
  List.mem_flatMap.mpr ⟨x, hx, hp⟩

/-- C7: for a fixed shard-name list (distinct names, collision-free
virtual-node hashes), removing a shard and re-adding it under the same name
restores the identical key-to-shard assignment: `get_node` answers the same
for every key as before the removal, because the virtual-node positions are a
deterministic, non-seeded hash of shard name and index. -/
theorem c7_remove_add_restores (nodes : List String) (V : Nat) (x key : String)
    (hndn : nodes.Nodup) (hinj : (allVnodeHashes nodes V).Nodup) (hx : x ∈ nodes) :
    (((ConsistentHash.init nodes V).remove_node x).add_node x).get_node key =
      (ConsistentHash.init nodes V).get_node key := by
  obtain ⟨⟨hs0, hp0, hn0, _⟩, hring0, hV0, _⟩ := init_spec nodes V hndn hinj
  set ch0 := ConsistentHash.init nodes V with hch0
  obtain ⟨hring1, hkeys1, hV1⟩ := remove_node_eq ch0 x hn0
  have hblock : ch0.hash_ring.filter (fun p => p.2 == x) = blockPairs V x := by
    rw [hring0]
    exact filter_allPairs_eq_block nodes V x hndn hx
  have hktr : (ch0.hash_ring.filter (fun p => p.2 == x)).map Prod.fst =
      blockHashes V x := by
    rw [hblock, blockPairs_map_fst]
  set ch1 := ch0.remove_node x with hch1
  have hV1' : ch1.virtual_nodes = V := by rw [hV1, hV0]
  have hbnd : (blockHashes ch1.virtual_nodes x).Nodup := by
    rw [hV1']
    exact List.Nodup.sublist (blockHashes_sublist nodes V x hx) hinj
  have hfresh : ∀ h ∈ blockHashes ch1.virtual_nodes x,
      h ∉ ch1.hash_ring.map Prod.fst := by
    rw [hV1']
    intro h hb hmem
    rw [hring1] at hmem
    rcases List.mem_map.mp hmem with ⟨p, hpf, hp1⟩
    have hpr : p ∈ ch0.hash_ring := (List.mem_filter.mp hpf).1
    have hpx : ¬ ((p.2 == x) = true) := by simpa using (List.mem_filter.mp hpf).2
    have hb' : h ∈ (blockPairs V x).map Prod.fst := by
      rw [blockPairs_map_fst]
      exact hb
    rcases List.mem_map.mp hb' with ⟨q, hqb, hq1⟩
    have hqr : q ∈ ch0.hash_ring := by
      rw [hring0]
      exact mem_blockPairs_allPairs nodes V x hx q hqb
    have hpq : p = q := List.inj_on_of_nodup_map hn0 hpr hqr (by rw [hp1, hq1])
    have hq2 : q.2 = x := blockPairs_snd V x q hqb
    refine hpx ?_
    rw [hpq, hq2]
    simp
  have heq2 := add_node_eq ch1 x hfresh hbnd
  have hkeys2 : (ch1.add_node x).sorted_keys = ch0.sorted_keys := by
    rw [heq2]
    show (ch1.sorted_keys ++
      blockHashes ch1.virtual_nodes x).insertionSort (· ≤ ·) = _
    refine List.eq_of_perm_of_sorted ?_ (List.sorted_insertionSort _ _) hs0
    refine (List.perm_insertionSort _ _).trans ?_
    rw [hV1', hkeys1, hktr]
    have hpart := ring_partition_perm ch0.hash_ring x
    have hmap := hpart.map Prod.fst
    rw [List.map_append, hktr] at hmap
    have hd1 : (ch0.sorted_keys.diff (blockHashes V x)).Perm
        ((ch0.hash_ring.map Prod.fst).diff (blockHashes V x)) :=
      hp0.diff_right _
    have hd2 : ((ch0.hash_ring.map Prod.fst).diff (blockHashes V x)).Perm
        ((blockHashes V x ++
          (ch0.hash_ring.filter (fun p => ¬ p.2 == x)).map Prod.fst).diff
          (blockHashes V x)) :=
      hmap.symm.diff_right _
    rw [append_diff_self] at hd2
    refine ((hd1.trans hd2).append_right _).trans ?_
    refine List.perm_append_comm.trans ?_
    exact hmap.trans hp0.symm
  have hringperm : ((ch1.add_node x).hash_ring).Perm ch0.hash_ring := by
    rw [heq2]
    show (ch1.hash_ring ++ blockPairs ch1.virtual_nodes x).Perm _
    rw [hV1', hring1, ← hblock]
    refine List.perm_append_comm.trans ?_
    exact ring_partition_perm ch0.hash_ring x
  refine get_node_congr _ _ key hkeys2 hringperm.isEmpty_eq ?_
  intro h
  exact (dictGet_eq_of_perm ch0.hash_ring _ hringperm.symm hn0 h).symm

set_option maxRecDepth 1000000 in
/-- C7 (witness): on the concrete ring from `["A", "B"]`, removing `"A"` and
re-adding it leaves `get_node "home"` unchanged. -/
theorem c7_remove_add_restores_witness :
    (((ConsistentHash.init ["A", "B"] 1).remove_node "A").add_node "A").get_node
        "home" = (ConsistentHash.init ["A", "B"] 1).get_node "home" :=
  c7_remove_add_restores ["A", "B"] 1 "A" "home" (by decide) (by decide) (by decide)
